import Mathlib

/-!
Verification of the ucset transactional ordered-set library.

The embedding instantiates the templates at the element type used by the
repository test-suite (`pair_t` with a `std::size_t` key and value and the
key-projecting comparator `pair_compare_t`), so the identifier type is `Nat`
and the element comparator is `<` on keys.  Generations are `std::int64_t`
counters incremented by one on each `new_generation()`; they are modelled as
`Int` (the claims never approach the 64-bit overflow boundary, so no modular
reduction is applied).

The ordered containers (`std::set<entry_t, entry_comparator_t>` in
`consistent_set_gt` and the AVL tree of `consistent_avl_gt`) are modelled by
their ordered element sequence: a list of entries sorted by the transparent
comparator, with at most one entry per `(identifier, generation)` key.  Every
container operation is translated from the corresponding member function of
the source, walking the same equal ranges in the same order.
-/

namespace Ucset

/-- The element type of the test instantiation: `pair_t` from the test file,
with `key` the identifier and `value` the payload. -/
structure Pair where
  key : Nat
  value : Nat
deriving DecidableEq

/-- `entry_t` from `element_versioning_gt` (status.hpp): element plus
generation, tombstone flag and visibility flag.  Field defaults in the C++
are generation 0, deleted false, visible true. -/
structure Entry where
  element : Pair
  generation : Int
  deleted : Bool
  visible : Bool
deriving DecidableEq

/-- `watch_t`: a `(generation, deleted)` snapshot of an identifier. -/
structure Watch where
  generation : Int
  deleted : Bool
deriving DecidableEq

/-- `dated_identifier_t`: an `(identifier, generation)` address of a revision. -/
structure DatedIdentifier where
  id : Nat
  generation : Int
deriving DecidableEq

/-- `watched_identifier_t`: an identifier paired with its recorded watch. -/
structure WatchedIdentifier where
  id : Nat
  watch : Watch
deriving DecidableEq

/-- `entry_t::operator!=(watch_t)`: entries differ from watches when either
the deleted flag or the generation differs. -/
def entry_ne_watch (e : Entry) (w : Watch) : Bool :=
  (w.deleted != e.deleted) || (w.generation != e.generation)

/-- `watch_t::operator!=(watch_t)`. -/
def watch_ne_watch (a : Watch) (w : Watch) : Bool :=
  (w.deleted != a.deleted) || (w.generation != a.generation)

/-- The four argument kinds accepted by the transparent
`entry_comparator_t`: a bare identifier `K`, an element `E`, an `entry_t`,
or a `dated_identifier_t`. -/
inductive Comparable where
  | ofId (k : Nat)
  | ofElement (e : Pair)
  | ofEntry (e : Entry)
  | ofDated (d : DatedIdentifier)
deriving DecidableEq

/-- `entry_comparator_t::comparable` composed with the element comparator:
every argument kind reduces to its identifier (the pair comparator
`pair_compare_t` compares keys only). -/
def Comparable.keyOf : Comparable → Nat
  | .ofId k => k
  | .ofElement e => e.key
  | .ofEntry e => e.element.key
  | .ofDated d => d.id

/-- `element_versioning_gt::knows_generation`: true exactly for `entry_t`
and `dated_identifier_t`. -/
def Comparable.knowsGeneration : Comparable → Bool
  | .ofEntry _ => true
  | .ofDated _ => true
  | _ => false

/-- The `.generation` member read by `dated_compare`; only entries and dated
identifiers carry one (the comparator instantiates `dated_compare` only for
those, so the default for the other kinds is never consulted). -/
def Comparable.generationOf : Comparable → Int
  | .ofEntry e => e.generation
  | .ofDated d => d.generation
  | _ => 0

/-- `entry_comparator_t::native_compare`: identifier-only comparison. -/
def native_compare (a b : Comparable) : Bool :=
  a.keyOf < b.keyOf

/-- `entry_comparator_t::dated_compare`: identifiers first, generations
break ties. -/
def dated_compare (a b : Comparable) : Bool :=
  let a_less_b := decide (a.keyOf < b.keyOf)
  let b_less_a := decide (b.keyOf < a.keyOf)
  if !a_less_b && !b_less_a then decide (a.generationOf < b.generationOf) else a_less_b

/-- `entry_comparator_t::less` (also its `operator()`): dispatches to the
dated comparison when both arguments carry a generation. -/
def entry_less (a b : Comparable) : Bool :=
  if a.knowsGeneration && b.knowsGeneration then dated_compare a b else native_compare a b

/-- `entry_comparator_t::same`: incomparability under `entry_less`. -/
def entry_same (a b : Comparable) : Bool :=
  !entry_less a b && !entry_less b a

/-- Entry-versus-entry comparison as used by the storage multisets:
`(identifier, generation)` lexicographic order. -/
def entryLt (a b : Entry) : Bool :=
  entry_less (.ofEntry a) (.ofEntry b)

/-- Status codes from `consistent_set_errc_t` (status.hpp); only the codes
the modelled operations can produce are listed. -/
inductive Status where
  | success_k
  | consistency_k
  | out_of_memory_heap_k
  | operation_not_permitted_k
deriving DecidableEq

/-- Result of a `find`-style lookup: which callback fires, and with which
entry. -/
inductive FindResult where
  | found (e : Entry)
  | missing
deriving DecidableEq

/-- Transaction state machine values (`stage_t`). -/
inductive TxnStage where
  | created_k
  | staged_k
deriving DecidableEq

/-! ### Sorted-sequence primitives shared by both storage backends -/

/-- Ordered-set insertion without overwrite: `std::set::insert` of an entry,
and equally `avl_node_gt::insert` / a node `merge` step.  Returns the new
sequence and whether the entry was inserted; on an `(identifier, generation)`
collision the existing entry is kept. -/
def setInsert (e : Entry) : List Entry → List Entry × Bool
  | [] => ([e], true)
  | o :: rest =>
    if entryLt e o then (e :: o :: rest, true)
    else if entryLt o e then
      let r := setInsert e rest
      (o :: r.1, r.2)
    else (o :: rest, false)

/-- The `(before, equal-range, after)` split of the ordered storage around a
bare identifier; `lower_bound(id)` starts the equal range and entries stop
matching once the key exceeds `id` (identifier-only comparison, so the whole
revision class of `id` is one contiguous run). -/
def eqRange (k : Nat) (l : List Entry) : List Entry × List Entry × List Entry :=
  (l.takeWhile (fun e => e.element.key < k),
    (l.dropWhile (fun e => e.element.key < k)).takeWhile (fun e => e.element.key == k),
    (l.dropWhile (fun e => e.element.key < k)).dropWhile (fun e => e.element.key == k))

/-- `erase_visible` over one iterator range: visible entries are erased (the
callback sees them first), non-visible entries survive; returns the kept
entries and the number erased. -/
def erase_visible_seg : List Entry → List Entry × Nat
  | [] => ([], 0)
  | e :: rest =>
    let r := erase_visible_seg rest
    if e.visible then (r.1, r.2 + 1) else (e :: r.1, r.2)

/-- The unmask phase of `unmask_and_compact`: every entry of the equal range
whose generation matches gains `visible |= true`. -/
def unmask_seg (g : Int) (seg : List Entry) : List Entry :=
  seg.map (fun e => { e with visible := e.visible || (e.generation == g) })

/-- The compaction phase of `unmask_and_compact`: walking the equal range in
order with a `last_visible_entry` cursor erases every visible entry that is
followed by another visible entry, keeping non-visible entries and the final
visible entry in place. -/
def compact_seg : List Entry → List Entry
  | [] => []
  | e :: rest =>
    if e.visible && rest.any (fun o => o.visible) then compact_seg rest
    else e :: compact_seg rest

/-- Entries of the storage visible for one identifier (the quantity the
visibility invariant bounds). -/
def visible_of_key (k : Nat) (l : List Entry) : List Entry :=
  l.filter (fun e => e.element.key == k && e.visible)

/-- `changes_.find(comparable)` with an identifier-only key: the change-set
entry of the identifier (the change-set holds at most one entry per
identifier, so the first match is the match). -/
def changes_find (k : Nat) (l : List Entry) : Option Entry :=
  l.find? (fun c => c.element.key == k)

/-- `entries_.find(dated_identifier_t)` followed by `erase`: removes the
entry addressed by `(identifier, generation)` when present (`reset` checks
for the end iterator before erasing). -/
def eraseDated (d : DatedIdentifier) (l : List Entry) : List Entry :=
  match l with
  | [] => []
  | e :: rest =>
    if e.element.key == d.id && e.generation == d.generation then rest
    else e :: eraseDated d rest

/-- `entries_.find(dated)` + `extract`: removes and returns the addressed
entry when present.  (`rollback` in the source skips the end-iterator check
and would extract an end iterator on a miss, which is undefined; the model
treats a miss as a no-op.) -/
def extractDated (d : DatedIdentifier) (l : List Entry) : Option Entry × List Entry :=
  match l with
  | [] => (none, [])
  | e :: rest =>
    if e.element.key == d.id && e.generation == d.generation then (some e, rest)
    else
      let r := extractDated d rest
      (r.1, e :: r.2)

/-!
### The multiset variant: `consistent_set_gt`
(second section of src/include/consistent_set/partitioned.hpp)

The `std::set<entry_t, entry_comparator_t>` of entries is its sorted
sequence, the generation counter is an `Int`, and `visible_count_` is the
cached visible count that `size()` reports.
-/

namespace CSet

/-- The container state of `consistent_set_gt`: storage multiset, monotonic
generation counter, cached visible count. -/
structure Store where
  entries : List Entry
  generation : Int
  visibleCount : Nat
deriving DecidableEq

/-- `consistent_set_gt::make` produces an empty container. -/
def make : Store := ⟨[], 0, 0⟩

/-- `new_generation`: pre-increment of the counter. -/
def Store.newGeneration (s : Store) : Int := s.generation + 1

/-- `consistent_set_gt::size`: the cached visible count. -/
def Store.size (s : Store) : Nat := s.visibleCount

/-- `consistent_set_gt::find`: equal range by identifier, skip non-visible
entries, report the first visible one (or the missing callback). -/
def Store.find (s : Store) (k : Nat) : FindResult :=
  let seg := (eqRange k s.entries).2.1
  match seg.dropWhile (fun e => !e.visible) with
  | [] => .missing
  | e :: _ => .found e

/-- `consistent_set_gt::upsert(element_t&&)`: stamp a fresh generation on a
new visible entry, insert it (an `(identifier, generation)` collision keeps
the existing entry, as `std::set::insert` does), bump the visible count and
erase every visible same-identifier entry ordered before the insertion
position. -/
def Store.upsert (s : Store) (x : Pair) : Store × Status :=
  let g := s.newGeneration
  let e : Entry := ⟨x, g, false, true⟩
  let l1 := (setInsert e s.entries).1
  let r := eqRange x.key l1
  let below := r.2.1.takeWhile (fun o => entryLt o e)
  let atAbove := r.2.1.dropWhile (fun o => entryLt o e)
  let ev := erase_visible_seg below
  (⟨r.1 ++ ev.1 ++ atAbove ++ r.2.2, g, s.visibleCount + 1 - ev.2⟩, .success_k)

/-- `consistent_set_gt::erase_range`: erase every visible entry in the
half-open identifier interval `[lo, hi)` (both bounds are located by
identifier-only `lower_bound`). -/
def Store.eraseRange (s : Store) (lo hi : Nat) : Store × Status :=
  let before := s.entries.takeWhile (fun e => e.element.key < lo)
  let rest := s.entries.dropWhile (fun e => e.element.key < lo)
  let mid := rest.takeWhile (fun e => e.element.key < hi)
  let after := rest.dropWhile (fun e => e.element.key < hi)
  let ev := erase_visible_seg mid
  (⟨before ++ ev.1 ++ after, s.generation, s.visibleCount - ev.2⟩, .success_k)

/-- `consistent_set_gt::clear`: drops the entries and resets the generation
counter; the cached `visible_count_` is left untouched by the source. -/
def Store.clear (s : Store) : Store × Status :=
  (⟨[], 0, s.visibleCount⟩, .success_k)

/-- `consistent_set_gt::unmask_and_compact` over one equal range: unmask
the matching generation (gaining one visible count per entry that was not
yet visible), then let the `last_visible_entry` walk erase every visible
entry that another visible entry follows (losing one visible count per
erasure).  Returns the surviving range and the visible-count delta. -/
def unmask_and_compact_seg (g : Int) (seg : List Entry) : List Entry × Int :=
  let u := unmask_seg g seg
  let gained := (seg.filter (fun e => e.generation == g && !e.visible)).length
  let vis := (u.filter (fun e => e.visible)).length
  let erased := vis - (if vis == 0 then 0 else 1)
  (compact_seg u, (gained : Int) - (erased : Int))

/-- The state of a `consistent_set_gt::transaction_t`: private change-set
(same ordered multiset type), watch vector, generation, state-machine
stage. -/
structure Txn where
  changes : List Entry
  watches : List WatchedIdentifier
  generation : Int
  stage_ : TxnStage
deriving DecidableEq

/-- The combined result of a transaction operation: the container, the
transaction, and the returned status. -/
structure TRes where
  store : Store
  txn : Txn
  status : Status
deriving DecidableEq

/-- `consistent_set_gt::transaction()`: draws a fresh generation for the new
transaction, which starts in `created_k` with empty change-set and
watches. -/
def Store.transaction (s : Store) : Store × Txn :=
  let g := s.newGeneration
  ({ s with generation := g }, ⟨[], [], g, .created_k⟩)

/-- `transaction_t::missing_watch`: the marker recorded for an absent
identifier. -/
def Txn.missingWatch (t : Txn) : Watch := ⟨t.generation, true⟩

/-- `transaction_t::upsert`: identifier-only `lower_bound` into the
change-set; an existing entry of the identifier is overwritten in place
(element, generation, flags), otherwise a new entry is emplaced at the
position.  The entry carries the transaction's generation, `deleted = false`
and `visible = false`. -/
def changes_upsert (g : Int) (x : Pair) : List Entry → List Entry
  | [] => [⟨x, g, false, false⟩]
  | e :: rest =>
    if e.element.key < x.key then e :: changes_upsert g x rest
    else if e.element.key == x.key then ⟨x, g, false, false⟩ :: rest
    else ⟨x, g, false, false⟩ :: e :: rest

/-- `transaction_t::erase`: like `upsert`, but an absent identifier emplaces
a placeholder element built from the identifier alone (`pair_t` from a key
has value 0), an existing entry keeps its element, and the entry is marked
`deleted = true`, `visible = false` with the transaction's generation. -/
def changes_erase (g : Int) (id : Nat) : List Entry → List Entry
  | [] => [⟨⟨id, 0⟩, g, true, false⟩]
  | e :: rest =>
    if e.element.key < id then e :: changes_erase g id rest
    else if e.element.key == id then
      { e with generation := g, deleted := true, visible := false } :: rest
    else ⟨⟨id, 0⟩, g, true, false⟩ :: e :: rest


/-- `transaction_t::upsert` on the transaction value. -/
def Txn.upsert (t : Txn) (x : Pair) : Txn × Status :=
  ({ t with changes := changes_upsert t.generation x t.changes }, .success_k)

/-- `transaction_t::erase` on the transaction value. -/
def Txn.erase (t : Txn) (id : Nat) : Txn × Status :=
  ({ t with changes := changes_erase t.generation id t.changes }, .success_k)

/-- `transaction_t::watch`: looks the identifier up in the container (not
the change-set); a found entry records its `(generation, deleted)` pair, a
missing identifier records the `missing_watch` marker.  Watches are pushed
onto the vector. -/
def Txn.watch (t : Txn) (s : Store) (id : Nat) : Txn × Status :=
  match s.find id with
  | .found e =>
    ({ t with watches :=
        t.watches ++ [⟨e.element.key, ⟨e.generation, e.deleted⟩⟩] }, .success_k)
  | .missing =>
    ({ t with watches := t.watches ++ [⟨id, t.missingWatch⟩] }, .success_k)

/-- `transaction_t::find`: the change-set is consulted first; a change-set
entry answers directly (tombstones report missing), otherwise the lookup is
delegated to the container. -/
def Txn.find (t : Txn) (s : Store) (k : Nat) : FindResult :=
  match changes_find k t.changes with
  | some c => if !c.deleted then .found c else .missing
  | none => s.find k

/-- The per-watch conflict test inside `stage`: the observed entry is
compared to the watch with `entry_t::operator!=`, a missing observation is
compared as the `missing_watch` marker. -/
def watch_violated (s : Store) (missing : Watch) (w : WatchedIdentifier) : Bool :=
  match s.find w.id with
  | .found e => entry_ne_watch e w.watch
  | .missing => watch_ne_watch missing w.watch

/-- `std::set::merge`: every change-set entry moves into the storage unless
an `(identifier, generation)`-equal entry is already there, in which case
the entry stays behind in the source set. -/
def setMerge (store changes : List Entry) : List Entry × List Entry :=
  changes.foldl
    (fun acc c =>
      let r := setInsert c acc.1
      if r.2 then (r.1, acc.2) else (r.1, acc.2 ++ [c]))
    (store, [])

/-- `transaction_t::stage`: first the conflict scan over the watches (any
violation returns `consistency_k` before any mutation), then the watches are
replaced by one link per change (carrying the transaction's generation and
the change's tombstone flag) and the change-set is merged into the
container, leaving the transaction `staged_k`. -/
def Txn.stage (t : Txn) (s : Store) : TRes :=
  match t.watches.find? (watch_violated s t.missingWatch) with
  | some _ => ⟨s, t, .consistency_k⟩
  | none =>
    let links := t.changes.map
      (fun c => (⟨c.element.key, ⟨t.generation, c.deleted⟩⟩ : WatchedIdentifier))
    let m := setMerge s.entries t.changes
    ⟨{ s with entries := m.1 },
      { t with watches := links, changes := m.2, stage_ := .staged_k }, .success_k⟩



/-- `transaction_t::reset`: a staged transaction erases each staged node by
its `(identifier, link-generation)` key; watches and changes are cleared,
the state returns to `created_k` and a fresh generation is drawn. -/
def Txn.reset (t : Txn) (s : Store) : TRes :=
  let entries1 :=
    if t.stage_ == .staged_k then
      t.watches.foldl (fun acc w => eraseDated ⟨w.id, w.watch.generation⟩ acc) s.entries
    else s.entries
  let g := s.generation + 1
  ⟨⟨entries1, g, s.visibleCount⟩, ⟨[], [], g, .created_k⟩, .success_k⟩

/-- `transaction_t::rollback`: only permitted when staged; each staged node
is extracted from the container back into the change-set (an
`(identifier, generation)` collision in the change-set destroys the node),
watches are cleared and a fresh generation is drawn. -/
def Txn.rollback (t : Txn) (s : Store) : TRes :=
  if t.stage_ != .staged_k then ⟨s, t, .operation_not_permitted_k⟩
  else
    let step := fun (acc : List Entry × List Entry) (w : WatchedIdentifier) =>
      let r := extractDated ⟨w.id, w.watch.generation⟩ acc.1
      match r.1 with
      | some e => (r.2, (setInsert e acc.2).1)
      | none => (acc.1, acc.2)
    let f := t.watches.foldl step (s.entries, t.changes)
    let g := s.generation + 1
    ⟨⟨f.1, g, s.visibleCount⟩, ⟨f.2, [], g, .created_k⟩, .success_k⟩

/-- `consistent_set_gt::unmask_and_compact` applied to the equal range of
one identifier, updating the visible count cache. -/
def Store.unmaskAndCompact (s : Store) (id : Nat) (g : Int) : Store :=
  let r := eqRange id s.entries
  let u := unmask_and_compact_seg g r.2.1
  ⟨r.1 ++ u.1 ++ r.2.2, s.generation, ((s.visibleCount : Int) + u.2).toNat⟩

/-- `transaction_t::commit`: only permitted when staged; each link's equal
range is unmasked and compacted; the state returns to `created_k` with the
generation unchanged and the watches left in place. -/
def Txn.commit (t : Txn) (s : Store) : TRes :=
  if t.stage_ != .staged_k then ⟨s, t, .operation_not_permitted_k⟩
  else
    let s1 := t.watches.foldl
      (fun acc w => acc.unmaskAndCompact w.id w.watch.generation) s
    ⟨s1, { t with stage_ := .created_k }, .success_k⟩

end CSet

/-!
### The AVL variant: `consistent_avl_gt`
(second section of src/unnamed/part_000)

The AVL tree of entries is modelled by its in-order entry sequence; tree
search, insertion, extraction and traversal are translated to the
corresponding operations on that sorted sequence (rotations only rebalance
and never change the in-order sequence).
-/

namespace CAvl

/-- The container state of `consistent_avl_gt`: entry tree, generation
counter, and the `visible_count_` cache (which `size()` does not use). -/
structure Store where
  entries : List Entry
  generation : Int
  visibleCount : Nat
deriving DecidableEq

/-- `consistent_avl_gt::make` produces an empty container. -/
def make : Store := ⟨[], 0, 0⟩

/-- `new_generation`: pre-increment of the counter. -/
def Store.newGeneration (s : Store) : Int := s.generation + 1

/-- `consistent_avl_gt::size`: the node count of the entry tree
(`entries_.size()`), whether or not the entries are visible. -/
def Store.size (s : Store) : Nat := s.entries.length

/-- `consistent_avl_gt::find`: scans the identifier's equal range and
reports the visible entry with the greatest generation, or missing. -/
def Store.find (s : Store) (k : Nat) : FindResult :=
  let seg := (eqRange k s.entries).2.1
  let largest := seg.foldl
    (fun acc e =>
      match acc with
      | none => if e.visible then some e else none
      | some a => if e.visible && a.generation < e.generation then some e else acc)
    none
  match largest with
  | some e => .found e
  | none => .missing

/-- `consistent_avl_gt::erase_range(id, dated_identifier_t{id, g})` as
issued by `upsert`: starting at `lower_bound(id)`, every entry ordered below
the dated bound (same identifier, smaller generation) is visited and the
visible ones are extracted. -/
def erase_range_upto (k : Nat) (g : Int) (l : List Entry) : List Entry :=
  let r := eqRange k l
  let bound : Entry := ⟨⟨k, 0⟩, g, false, true⟩
  let below := r.2.1.takeWhile (fun o => entryLt o bound)
  let rest := r.2.1.dropWhile (fun o => entryLt o bound)
  r.1 ++ below.filter (fun o => !o.visible) ++ rest ++ r.2.2

/-- `consistent_avl_gt::upsert(element_t&&)`: build a fresh visible entry
with a new generation, merge its node into the tree (a key collision keeps
the tree unchanged and loses the node), bump the visible count, then erase
older visible revisions of the identifier.  Node allocation is modelled as
succeeding; an allocation failure returns out-of-memory with the container
untouched and is not exercised by the claims. -/
def Store.upsert (s : Store) (x : Pair) : Store × Status :=
  let g := s.newGeneration
  let e : Entry := ⟨x, g, false, true⟩
  let entries1 := (setInsert e s.entries).1
  (⟨erase_range_upto x.key g entries1, g, s.visibleCount + 1⟩, .success_k)

/-- One element of the batch populate loop of
`consistent_avl_gt::upsert(begin, end)`: merge the pre-allocated node
(carrying the shared batch generation) and erase older visible revisions of
its identifier. -/
def batch_step (g : Int) (st : Store) (x : Pair) : Store :=
  let e : Entry := ⟨x, g, false, true⟩
  let entries1 := (setInsert e st.entries).1
  ⟨erase_range_upto x.key g entries1, st.generation, st.visibleCount + 1⟩

/-- `consistent_avl_gt::upsert(begin, end)`: pre-allocates one node per
element (`alloc_ok = false` makes an allocation return null, upon which all
nodes are deallocated and `out_of_memory_heap_k` is returned with the
container untouched); on success one fresh generation is drawn for the whole
batch and the elements are populated first-to-last. -/
def Store.upsertBatch (s : Store) (xs : List Pair) (alloc_ok : Bool) : Store × Status :=
  if !alloc_ok && decide (0 < xs.length) then (s, .out_of_memory_heap_k)
  else
    let g := s.newGeneration
    (xs.foldl (batch_step g) { s with generation := g }, .success_k)

/-- `consistent_avl_gt::clear`: drops the tree and resets the generation. -/
def Store.clear (s : Store) : Store × Status :=
  (⟨[], 0, s.visibleCount⟩, .success_k)

/-- `consistent_avl_gt::unmask_and_compact`: walk the identifier's equal
range in order, unmask the matching generation, and let the
`last_visible_entry` cursor extract every visible entry that another visible
entry follows.  The AVL variant does not adjust the visible count here. -/
def Store.unmaskAndCompact (s : Store) (id : Nat) (g : Int) : Store :=
  let r := eqRange id s.entries
  ⟨r.1 ++ compact_seg (unmask_seg g r.2.1) ++ r.2.2, s.generation, s.visibleCount⟩

/-- The state of a `consistent_avl_gt::transaction_t`. -/
structure Txn where
  changes : List Entry
  watches : List WatchedIdentifier
  generation : Int
  stage_ : TxnStage
deriving DecidableEq

/-- The combined result of a transaction operation. -/
structure TRes where
  store : Store
  txn : Txn
  status : Status
deriving DecidableEq

/-- `consistent_avl_gt::transaction()`: a fresh generation for the new
transaction. -/
def Store.transaction (s : Store) : Store × Txn :=
  let g := s.newGeneration
  ({ s with generation := g }, ⟨[], [], g, .created_k⟩)

/-- `transaction_t::missing_watch`. -/
def Txn.missingWatch (t : Txn) : Watch := ⟨t.generation, true⟩

/-- `avl_tree_gt::upsert` on the change-set: insertion keyed by
`(identifier, generation)`, overwriting the entry of an equal key. -/
def avl_changes_upsert (e : Entry) : List Entry → List Entry
  | [] => [e]
  | o :: rest =>
    if entryLt e o then e :: o :: rest
    else if entryLt o e then o :: avl_changes_upsert e rest
    else e :: rest

/-- `transaction_t::upsert` (AVL): upsert an entry with the transaction's
generation, `deleted = false`, `visible = false` into the change-set. -/
def Txn.upsert (t : Txn) (x : Pair) : Txn × Status :=
  ({ t with changes := avl_changes_upsert ⟨x, t.generation, false, false⟩ t.changes },
    .success_k)

/-- `transaction_t::erase` (AVL): upsert a tombstone entry whose element is
built from the identifier alone. -/
def Txn.erase (t : Txn) (id : Nat) : Txn × Status :=
  ({ t with changes := avl_changes_upsert ⟨⟨id, 0⟩, t.generation, true, false⟩ t.changes },
    .success_k)

/-- `transaction_t::watch` (AVL): container lookup, recording either the
entry's `(generation, deleted)` pair or the missing marker. -/
def Txn.watch (t : Txn) (s : Store) (id : Nat) : Txn × Status :=
  match s.find id with
  | .found e =>
    ({ t with watches :=
        t.watches ++ [⟨e.element.key, ⟨e.generation, e.deleted⟩⟩] }, .success_k)
  | .missing =>
    ({ t with watches := t.watches ++ [⟨id, t.missingWatch⟩] }, .success_k)

/-- `transaction_t::find` (AVL): the change-set entry of the identifier
answers first (tombstones report missing), otherwise the container lookup
runs. -/
def Txn.find (t : Txn) (s : Store) (k : Nat) : FindResult :=
  match changes_find k t.changes with
  | some c => if !c.deleted then .found c else .missing
  | none => s.find k

/-- The per-watch conflict test of `stage` (AVL), identical to the multiset
variant but against the AVL container's `find`. -/
def watch_violated (s : Store) (missing : Watch) (w : WatchedIdentifier) : Bool :=
  match s.find w.id with
  | .found e => entry_ne_watch e w.watch
  | .missing => watch_ne_watch missing w.watch

/-- `avl_tree_gt::merge`: every change-set node is inserted into the
storage tree; a node whose `(identifier, generation)` key is already present
is not inserted and is lost, and the source tree is emptied either way. -/
def avlMerge (store changes : List Entry) : List Entry :=
  changes.foldl (fun acc c => (setInsert c acc).1) store

/-- `transaction_t::stage` (AVL): conflict scan, then the watches become one
link per change and the change-set tree is merged into the container. -/
def Txn.stage (t : Txn) (s : Store) : TRes :=
  match t.watches.find? (watch_violated s t.missingWatch) with
  | some _ => ⟨s, t, .consistency_k⟩
  | none =>
    let links := t.changes.map
      (fun c => (⟨c.element.key, ⟨t.generation, c.deleted⟩⟩ : WatchedIdentifier))
    ⟨{ s with entries := avlMerge s.entries t.changes },
      { t with watches := links, changes := [], stage_ := .staged_k }, .success_k⟩

/-- `transaction_t::reset` (AVL): a staged transaction erases each staged
node by its dated key (`avl_tree_gt::erase` tolerates a miss); watches and
changes are cleared and a fresh generation is drawn. -/
def Txn.reset (t : Txn) (s : Store) : TRes :=
  let entries1 :=
    if t.stage_ == .staged_k then
      t.watches.foldl (fun acc w => eraseDated ⟨w.id, w.watch.generation⟩ acc) s.entries
    else s.entries
  let g := s.generation + 1
  ⟨⟨entries1, g, s.visibleCount⟩, ⟨[], [], g, .created_k⟩, .success_k⟩

/-- `transaction_t::rollback` (AVL): only permitted when staged; each staged
node is extracted by its dated key (a miss extracts nothing) and merged back
into the change-set (an equal-key collision loses the node); watches are
cleared and a fresh generation is drawn. -/
def Txn.rollback (t : Txn) (s : Store) : TRes :=
  if t.stage_ != .staged_k then ⟨s, t, .operation_not_permitted_k⟩
  else
    let step := fun (acc : List Entry × List Entry) (w : WatchedIdentifier) =>
      let r := extractDated ⟨w.id, w.watch.generation⟩ acc.1
      match r.1 with
      | some e => (r.2, (setInsert e acc.2).1)
      | none => (acc.1, acc.2)
    let f := t.watches.foldl step (s.entries, t.changes)
    let g := s.generation + 1
    ⟨⟨f.1, g, s.visibleCount⟩, ⟨f.2, [], g, .created_k⟩, .success_k⟩

/-- `transaction_t::commit` (AVL): only permitted when staged; each link's
equal range is unmasked and compacted; the transaction returns to
`created_k` with its generation unchanged and its watches in place. -/
def Txn.commit (t : Txn) (s : Store) : TRes :=
  if t.stage_ != .staged_k then ⟨s, t, .operation_not_permitted_k⟩
  else
    let s1 := t.watches.foldl
      (fun acc w => acc.unmaskAndCompact w.id w.watch.generation) s
    ⟨s1, { t with stage_ := .created_k }, .success_k⟩

end CAvl

/-!
### The partitioned wrapper: `partitioned_gt`
(second section of src/include/ucset/locked.hpp)
-/

/-- `partitioned_gt::size`: under all shard locks, the loop
`for (auto const& part : parts_) total += parts_.size();` accumulates
`parts_.size()` — the size of the `std::array` of shards — once per shard,
never consulting `part.size()`. -/
def partitioned_size (parts : List CSet.Store) : Nat :=
  parts.foldl (fun total _ => total + parts.length) 0

/-- The sum of the shards' own `size()` results, which is what the summing
loop ranges over the shards for. -/
def partitioned_size_sum (parts : List CSet.Store) : Nat :=
  (parts.map CSet.Store.size).sum

/-! ### Well-formedness predicates -/

/-- A change-set holds at most one entry per identifier, in identifier
order. -/
@[reducible] def keySorted (l : List Entry) : Prop :=
  List.Pairwise (fun a b => a.element.key < b.element.key) l

/-- The storage sequence is strictly sorted by the
`(identifier, generation)` order of the transparent comparator. -/
@[reducible] def entriesSorted (l : List Entry) : Prop :=
  List.Pairwise (fun a b => entryLt a b = true) l

/-! ### Concrete operation sequences exercised by the claims -/

/-- AVL variant: one transaction upserts identifier 5 and commits; with its
generation unrefreshed by the commit it upserts identifier 5 again and
stages (the colliding node is silently lost by `avl_tree_gt::merge`), then
rolls back, which extracts the committed still-visible revision into its
change-set; a top-level upsert reinstates identifier 5; the final stage
merges the old visible entry back next to the new one. -/
def c1_sequence : CAvl.TRes :=
  let p1 := CAvl.make.transaction
  let t1 := (p1.2.upsert ⟨5, 10⟩).1
  let r2 := t1.stage p1.1
  let r3 := r2.txn.commit r2.store
  let t4 := (r3.txn.upsert ⟨5, 11⟩).1
  let r5 := t4.stage r3.store
  let r6 := r5.txn.rollback r5.store
  let s7 := (r6.store.upsert ⟨5, 12⟩).1
  r6.txn.stage s7

/-- Multiset variant: a transaction watches the absent identifier 7 (a
missing watch with its generation 1); `clear` resets the generation
counter; a second transaction (drawing the same generation 1) erases
identifier 7, stages and commits, leaving a visible tombstone carrying
`(generation 1, deleted)` — bitwise equal to the first transaction's
missing watch.  Returns the container before the watcher stages, the
watching transaction, and its stage result. -/
def c2_sequence : CSet.Store × CSet.Txn × CSet.TRes :=
  let p1 := CSet.make.transaction
  let w := p1.2.watch p1.1 7
  let c := p1.1.clear
  let p2 := c.1.transaction
  let t2 := (p2.2.erase 7).1
  let r4 := t2.stage p2.1
  let r5 := r4.txn.commit r4.store
  (r5.store, w.1, w.1.stage r5.store)

/-- AVL variant: a batch with two elements of the same identifier. -/
def c3_batch : CAvl.Store × Status :=
  CAvl.make.upsertBatch [⟨5, 1⟩, ⟨5, 2⟩] true

/-- Multiset variant: upsert staged and committed by a transaction; the
commit result is returned together with the transaction state just before
the commit. -/
def c4_sequence : CSet.Txn × CSet.TRes :=
  let p1 := CSet.make.transaction
  let tb := (p1.2.upsert ⟨5, 1⟩).1
  let r2 := tb.stage p1.1
  (r2.txn, r2.txn.commit r2.store)

/-- Sixteen shards of the partitioned wrapper with a single element
upserted into the first shard. -/
def c5_parts : List CSet.Store :=
  (CSet.make.upsert ⟨5, 7⟩).1 :: List.replicate 15 CSet.make

/-- Multiset variant: one upsert followed by `clear`. -/
def c6_cleared : CSet.Store := ((CSet.make.upsert ⟨5, 7⟩).1.clear).1

/-- AVL variant: a transaction upsert staged but not committed. -/
def c6_staged : CAvl.TRes :=
  let p := CAvl.make.transaction
  ((p.2.upsert ⟨5, 7⟩).1).stage p.1

/-- Multiset variant: a transaction upserts identifier 7; `clear` resets
the generation counter; the stage and commit then leave a visible entry of
identifier 7 with generation 1 while the counter is 0, so the next
top-level upsert of identifier 7 draws the colliding generation 1. -/
def c9_sequence : CSet.Store × Status :=
  let p1 := CSet.make.transaction
  let tb := (p1.2.upsert ⟨7, 99⟩).1
  let c := p1.1.clear
  let r3 := tb.stage c.1
  let r4 := r3.txn.commit r3.store
  r4.store.upsert ⟨7, 42⟩

/-! ### Concrete evaluations and counterexamples -/

/-- Claim C1 fails on the code: through public operations only, the AVL
variant reaches a state in which identifier 5 holds two entries with
`visible = true` (generations 1 and 3), while the claim and the spec allow
at most one; the final stage reported success. -/
theorem c1_two_visible_entries :
    c1_sequence.status = .success_k ∧
    visible_of_key 5 c1_sequence.store.entries =
      [⟨⟨5, 10⟩, 1, false, true⟩, ⟨⟨5, 12⟩, 3, false, true⟩] := by decide

/-- Claim C2 fails as stated: the first transaction's watch on identifier 7
was recorded missing (the lookup at watch time reported missing), a visible
entry for identifier 7 (a tombstone with the colliding generation) exists
when it stages, and yet `stage()` returns success instead of
`consistency_k`. -/
theorem c2_counterexample :
    (CSet.make.transaction).1.find 7 = .missing ∧
    c2_sequence.2.1.watches = [⟨7, ⟨1, true⟩⟩] ∧
    c2_sequence.2.1.stage_ = .created_k ∧
    visible_of_key 7 c2_sequence.1.entries = [⟨⟨7, 0⟩, 1, true, true⟩] ∧
    c2_sequence.2.2.status = .success_k := by decide

/-- Claim C3 fails as stated: the batch `[{5,1}, {5,2}]` returns success,
yet the element `{5,2}` was never inserted — the storage holds exactly the
entry of the first element, which is the identifier's visible revision. -/
theorem c3_counterexample :
    c3_batch.2 = .success_k ∧
    c3_batch.1.entries = [⟨⟨5, 1⟩, 1, false, true⟩] ∧
    (∀ e ∈ c3_batch.1.entries, e.element ≠ (⟨5, 2⟩ : Pair)) := by decide

/-- Claim C4 fails as stated: a successful `commit()` leaves the
transaction's generation exactly as it was (1), not strictly greater. -/
theorem c4_counterexample :
    c4_sequence.2.status = .success_k ∧
    c4_sequence.1.generation = 1 ∧
    c4_sequence.2.txn.generation = 1 ∧
    ¬ c4_sequence.1.generation < c4_sequence.2.txn.generation := by decide

/-- Claim C5 fails on the code: with 16 shards holding one visible element
in total, the summing loop returns 16 · 16 = 256 (it adds the shard-array
length once per shard), while the sum of the shards' own sizes is 1. -/
theorem c5_partitioned_size_bug :
    partitioned_size c5_parts = 256 ∧ partitioned_size_sum c5_parts = 1 := by decide

/-- Claim C6 fails on the code: after upserting one element and clearing,
the multiset variant's storage is empty yet `size()` still reports 1 (the
visible-count cache is not reset by `clear`); and the AVL variant reports
`size() = 1` for a store whose only entry is a staged, non-visible one. -/
theorem c6_size_and_clear_bug :
    c6_cleared.entries = [] ∧ c6_cleared.size = 1 ∧
    c6_staged.status = .success_k ∧
    c6_staged.store.size = 1 ∧
    (c6_staged.store.entries.filter (fun e => e.visible)).length = 0 := by decide

/-- Claim C8 fails in its `same` clause: two entries with equal identifier
3 and generations 0 and 1 are incomparable under the identifier-only
comparison, yet `same` reports false because it reuses the
generation-aware `less`. -/
theorem c8_counterexample :
    native_compare (.ofEntry ⟨⟨3, 0⟩, 0, false, true⟩) (.ofEntry ⟨⟨3, 1⟩, 1, false, true⟩)
        = false ∧
    native_compare (.ofEntry ⟨⟨3, 1⟩, 1, false, true⟩) (.ofEntry ⟨⟨3, 0⟩, 0, false, true⟩)
        = false ∧
    entry_same (.ofEntry ⟨⟨3, 0⟩, 0, false, true⟩) (.ofEntry ⟨⟨3, 1⟩, 1, false, true⟩)
        = false := by decide

/-- Claim C9 fails as stated: after the generation counter was reset under
a live transaction, the top-level `upsert({7,42})` returns success but its
insertion collides with the pre-existing `(7, generation 1)` entry, so the
immediately following `find(7)` reports the old element `{7,99}`. -/
theorem c9_counterexample :
    c9_sequence.2 = .success_k ∧
    c9_sequence.1.find 7 = .found ⟨⟨7, 99⟩, 1, false, true⟩ ∧
    (⟨7, 99⟩ : Pair) ≠ (⟨7, 42⟩ : Pair) := by decide

/-! ### Order lemmas for the transparent comparator -/

theorem entryLt_iff (a b : Entry) :
    entryLt a b = true ↔
      (a.element.key < b.element.key ∨
        (a.element.key = b.element.key ∧ a.generation < b.generation)) := by
  simp only [entryLt, entry_less, Comparable.knowsGeneration, Bool.and_self, if_pos,
    dated_compare, Comparable.keyOf, Comparable.generationOf]
  rcases Nat.lt_trichotomy a.element.key b.element.key with h | h | h <;>
    simp [h, Nat.lt_asymm, Nat.lt_irrefl] <;> omega

theorem entryLt_irrefl (a : Entry) : entryLt a a = false := by
  rw [Bool.eq_false_iff]
  intro h
  rcases (entryLt_iff a a).mp h with h1 | h1 <;> omega

theorem entryLt_asymm {a b : Entry} (h : entryLt a b = true) : entryLt b a = false := by
  rw [Bool.eq_false_iff]
  intro h2
  rcases (entryLt_iff a b).mp h with h1 | h1 <;>
    rcases (entryLt_iff b a).mp h2 with h3 | h3 <;> omega

theorem entryLt_of_false_false {a b : Entry}
    (h1 : entryLt a b = false) (h2 : entryLt b a = false) :
    a.element.key = b.element.key ∧ a.generation = b.generation := by
  have n1 : ¬ (a.element.key < b.element.key ∨
      (a.element.key = b.element.key ∧ a.generation < b.generation)) := by
    intro hc
    have := (entryLt_iff a b).mpr hc
    simp [h1] at this
  have n2 : ¬ (b.element.key < a.element.key ∨
      (b.element.key = a.element.key ∧ b.generation < a.generation)) := by
    intro hc
    have := (entryLt_iff b a).mpr hc
    simp [h2] at this
  push_neg at n1 n2
  constructor <;> omega

/-! ### Generic list lemmas -/

theorem takeWhile_append_of_forall {α : Type} (p : α → Bool) (l1 l2 : List α)
    (h : ∀ a ∈ l1, p a = true) :
    (l1 ++ l2).takeWhile p = l1 ++ l2.takeWhile p := by
  induction l1 with
  | nil => simp
  | cons a rest ih =>
    have ha := h a (by simp)
    simp [List.takeWhile, ha, ih (fun b hb => h b (by simp [hb]))]

theorem dropWhile_append_of_forall {α : Type} (p : α → Bool) (l1 l2 : List α)
    (h : ∀ a ∈ l1, p a = true) :
    (l1 ++ l2).dropWhile p = l2.dropWhile p := by
  induction l1 with
  | nil => simp
  | cons a rest ih =>
    have ha := h a (by simp)
    simp [List.dropWhile, ha, ih (fun b hb => h b (by simp [hb]))]

theorem takeWhile_eq_nil_of_head {α : Type} (p : α → Bool) (l : List α)
    (h : ∀ a ∈ l.head?, p a = false) :
    l.takeWhile p = [] := by
  cases l with
  | nil => rfl
  | cons a rest => simp [List.takeWhile, h a (by simp)]

theorem dropWhile_eq_self_of_head {α : Type} (p : α → Bool) (l : List α)
    (h : ∀ a ∈ l.head?, p a = false) :
    l.dropWhile p = l := by
  cases l with
  | nil => rfl
  | cons a rest => simp [List.dropWhile, h a (by simp)]

/-- `erase_visible` keeps exactly the non-visible entries of the range and
counts the visible ones. -/
theorem erase_visible_seg_eq (l : List Entry) :
    erase_visible_seg l =
      (l.filter (fun e => !e.visible), (l.filter (fun e => e.visible)).length) := by
  induction l with
  | nil => rfl
  | cons e rest ih =>
    cases hv : e.visible <;> simp [erase_visible_seg, ih, hv, List.filter]

/-- Re-reading the equal range of an explicitly partitioned sequence. -/
theorem eqRange_of_parts (k : Nat) (B S A : List Entry)
    (hB : ∀ e ∈ B, e.element.key < k)
    (hS : ∀ e ∈ S, e.element.key = k)
    (hA : ∀ e ∈ A, k < e.element.key) :
    eqRange k (B ++ S ++ A) = (B, S, A) := by
  have hBt : ∀ e ∈ B, (fun e : Entry => decide (e.element.key < k)) e = true := by
    intro e he; simpa using hB e he
  have hSAh : ∀ e ∈ (S ++ A).head?, (fun e : Entry => decide (e.element.key < k)) e = false := by
    intro e he
    cases S with
    | nil =>
      cases A with
      | nil => simp at he
      | cons a rest =>
        simp at he
        subst he
        simpa using Nat.le_of_lt (hA a (by simp))
    | cons s rest =>
      simp at he
      subst he
      simpa [Nat.not_lt] using Nat.le_of_eq (hS s (by simp)).symm
  have hSt : ∀ e ∈ S, (fun e : Entry => e.element.key == k) e = true := by
    intro e he; simpa using hS e he
  have hAh : ∀ e ∈ A.head?, (fun e : Entry => e.element.key == k) e = false := by
    intro e he
    cases A with
    | nil => simp at he
    | cons a rest =>
      simp at he
      subst he
      simpa using Nat.ne_of_gt (hA a (by simp))
  unfold eqRange
  rw [List.append_assoc, takeWhile_append_of_forall _ B _ hBt,
    dropWhile_append_of_forall _ B _ hBt,
    takeWhile_eq_nil_of_head _ _ hSAh, dropWhile_eq_self_of_head _ _ hSAh,
    takeWhile_append_of_forall _ S _ hSt, dropWhile_append_of_forall _ S _ hSt,
    takeWhile_eq_nil_of_head _ _ hAh, dropWhile_eq_self_of_head _ _ hAh]
  simp


/-! ### Change-set lookup lemmas -/

theorem changes_find_eq_none (k : Nat) (l : List Entry)
    (h : ∀ c ∈ l, c.element.key ≠ k) : changes_find k l = none := by
  apply List.find?_eq_none.mpr
  intro c hc
  simpa using h c hc

theorem changes_find_unique (k : Nat) (l : List Entry) (hs : keySorted l)
    {c : Entry} (hc : c ∈ l) (hk : c.element.key = k) :
    changes_find k l = some c := by
  induction l with
  | nil => simp at hc
  | cons a rest ih =>
    rcases List.mem_cons.mp hc with h1 | h1
    · subst h1
      simp [changes_find, List.find?, hk]
    · have hlt : a.element.key < c.element.key :=
        (List.pairwise_cons.mp hs).1 c h1
      have hne : (a.element.key == k) = false := by
        simp
        omega
      simp only [changes_find, List.find?, hne]
      exact ih (List.pairwise_cons.mp hs).2 h1

theorem changes_find_changes_erase_absent (g : Int) (id : Nat) (l : List Entry)
    (h : ∀ c ∈ l, c.element.key ≠ id) :
    changes_find id (CSet.changes_erase g id l) = some ⟨⟨id, 0⟩, g, true, false⟩ := by
  induction l with
  | nil => simp [CSet.changes_erase, changes_find, List.find?]
  | cons e rest ih =>
    have hne := h e (by simp)
    have hne2 : (e.element.key == id) = false := by simpa using hne
    unfold CSet.changes_erase
    by_cases h1 : e.element.key < id
    · simp only [if_pos h1, changes_find, List.find?, hne2]
      exact ih (fun c hc => h c (by simp [hc]))
    · simp only [if_neg h1, hne2, Bool.false_eq_true, if_neg (by simp [hne2] : ¬ (e.element.key == id) = true)]
      simp [changes_find, List.find?]

theorem changes_find_avl_upsert_absent (e : Entry) (l : List Entry)
    (h : ∀ c ∈ l, c.element.key ≠ e.element.key) :
    changes_find e.element.key (CAvl.avl_changes_upsert e l) = some e := by
  induction l with
  | nil => simp [CAvl.avl_changes_upsert, changes_find, List.find?]
  | cons o rest ih =>
    have hne := h o (by simp)
    have hne2 : (o.element.key == e.element.key) = false := by simpa using hne
    unfold CAvl.avl_changes_upsert
    rcases Nat.lt_trichotomy e.element.key o.element.key with hk | hk | hk
    · have hlt : entryLt e o = true := (entryLt_iff e o).mpr (Or.inl hk)
      simp [hlt, changes_find, List.find?]
    · exact absurd hk.symm hne
    · have hlt : entryLt e o = false := by
        rw [Bool.eq_false_iff]
        intro hcon
        rcases (entryLt_iff e o).mp hcon with h2 | h2 <;> omega
      have hgt : entryLt o e = true := (entryLt_iff o e).mpr (Or.inl hk)
      simp only [hlt, hgt, Bool.false_eq_true, if_neg (by simp : ¬ False), if_pos rfl]
      simp only [changes_find, List.find?, hne2]
      exact ih (fun c hc => h c (by simp [hc]))

/-! ### Claim C7: transaction find consults the change-set first -/

/-- Claim C7: for both storage variants, a transaction `find` consults the
change-set first — when the change-set holds an entry for the identifier,
that pending entry answers (`on_found` with it, unless it is a tombstone, in
which case `on_missing`), and only an identifier absent from the change-set
delegates the lookup to the underlying container. -/
theorem c7_transaction_find :
    (∀ (s : CSet.Store) (t : CSet.Txn) (k : Nat), keySorted t.changes →
      ((∀ c ∈ t.changes, c.element.key ≠ k) → t.find s k = s.find k) ∧
      (∀ c ∈ t.changes, c.element.key = k →
        t.find s k = if c.deleted then FindResult.missing else .found c)) ∧
    (∀ (s : CAvl.Store) (t : CAvl.Txn) (k : Nat), keySorted t.changes →
      ((∀ c ∈ t.changes, c.element.key ≠ k) → t.find s k = s.find k) ∧
      (∀ c ∈ t.changes, c.element.key = k →
        t.find s k = if c.deleted then FindResult.missing else .found c)) := by
  constructor
  · intro s t k hs
    constructor
    · intro h
      simp [CSet.Txn.find, changes_find_eq_none k t.changes h]
    · intro c hc hk
      simp only [CSet.Txn.find, changes_find_unique k t.changes hs hc hk]
      cases hd : c.deleted <;> simp [hd]
  · intro s t k hs
    constructor
    · intro h
      simp [CAvl.Txn.find, changes_find_eq_none k t.changes h]
    · intro c hc hk
      simp only [CAvl.Txn.find, changes_find_unique k t.changes hs hc hk]
      cases hd : c.deleted <;> simp [hd]

/-- Witness for C7 at a concrete input: a change-set tombstone for
identifier 4 makes the transaction lookup miss even though the container is
consulted for nothing. -/
theorem c7_transaction_find_witness :
    CSet.Txn.find ⟨[⟨⟨4, 9⟩, 1, true, false⟩], [], 1, .created_k⟩ CSet.make 4 =
      FindResult.missing := by
  have h := ((c7_transaction_find.1 CSet.make
      ⟨[⟨⟨4, 9⟩, 1, true, false⟩], [], 1, .created_k⟩ 4 (by decide)).2
      ⟨⟨4, 9⟩, 1, true, false⟩ (by decide) rfl)
  simpa using h

/-! ### Claim C10: transaction erase of an absent identifier -/

/-- Claim C10: for both storage variants, erasing an identifier absent from
both the container and the change-set succeeds unconditionally, records a
change-set tombstone with the transaction generation, `deleted = true` and
`visible = false`, and a subsequent transaction `find` reports missing. -/
theorem c10_erase_absent :
    (∀ (s : CSet.Store) (t : CSet.Txn) (id : Nat),
      (∀ c ∈ t.changes, c.element.key ≠ id) →
      s.find id = .missing →
      (t.erase id).2 = .success_k ∧
      changes_find id (t.erase id).1.changes =
        some ⟨⟨id, 0⟩, t.generation, true, false⟩ ∧
      (t.erase id).1.find s id = .missing) ∧
    (∀ (s : CAvl.Store) (t : CAvl.Txn) (id : Nat),
      (∀ c ∈ t.changes, c.element.key ≠ id) →
      s.find id = .missing →
      (t.erase id).2 = .success_k ∧
      changes_find id (t.erase id).1.changes =
        some ⟨⟨id, 0⟩, t.generation, true, false⟩ ∧
      (t.erase id).1.find s id = .missing) := by
  constructor
  · intro s t id h hmiss
    have hfind := changes_find_changes_erase_absent t.generation id t.changes h
    refine ⟨rfl, hfind, ?_⟩
    simp [CSet.Txn.find, CSet.Txn.erase, hfind]
  · intro s t id h hmiss
    have hfind := changes_find_avl_upsert_absent ⟨⟨id, 0⟩, t.generation, true, false⟩
      t.changes h
    refine ⟨rfl, hfind, ?_⟩
    simp [CAvl.Txn.find, CAvl.Txn.erase, hfind]

/-- Witness for C10 at a concrete input: identifier 3 absent everywhere. -/
theorem c10_erase_absent_witness :
    (CSet.Txn.erase ⟨[], [], 2, .created_k⟩ 3).1.find CSet.make 3 =
      FindResult.missing := by
  exact (c10_erase_absent.1 CSet.make ⟨[], [], 2, .created_k⟩ 3
    (by decide) (by decide)).2.2


/-! ### Claim C2 (amended): the stage conflict check -/

/-- Claim C2 as amended: `stage()` returns `consistency_k` exactly when some
recorded watch differs from the current observation — a found visible entry
whose `(generation, deleted)` pair differs from the watch, or a missing
identifier whose watch is not bitwise equal to the transaction's missing
marker `(txn.generation, deleted = true)`; and a `consistency_k` return
leaves the container and the transaction (change-set, watches, state)
untouched.  (As originally stated the claim fails: a missing watch is not
reported as a conflict when the newly visible entry is a tombstone equal to
the marker — the recorded counterexample.) -/
theorem c2_amended_stage_conflict :
    ∀ (s : CSet.Store) (t : CSet.Txn),
      ((t.stage s).status = .consistency_k ↔
        ∃ w ∈ t.watches,
          (∃ e, s.find w.id = .found e ∧
            (e.generation ≠ w.watch.generation ∨ e.deleted ≠ w.watch.deleted)) ∨
          (s.find w.id = .missing ∧
            (w.watch.generation ≠ t.generation ∨ w.watch.deleted ≠ true))) ∧
      ((t.stage s).status = .consistency_k →
        (t.stage s).store = s ∧ (t.stage s).txn = t) := by
  intro s t
  have hpred : ∀ w : WatchedIdentifier,
      CSet.watch_violated s t.missingWatch w = true ↔
        ((∃ e, s.find w.id = .found e ∧
            (e.generation ≠ w.watch.generation ∨ e.deleted ≠ w.watch.deleted)) ∨
          (s.find w.id = .missing ∧
            (w.watch.generation ≠ t.generation ∨ w.watch.deleted ≠ true))) := by
    intro w
    unfold CSet.watch_violated
    cases hf : s.find w.id with
    | found e =>
      simp only [hf, entry_ne_watch, FindResult.found.injEq, Bool.or_eq_true, bne_iff_ne]
      constructor
      · intro h
        exact Or.inl ⟨e, by trivial, by tauto⟩
      · rintro (⟨e2, he2, hd⟩ | ⟨hbad, _⟩)
        · cases he2
          tauto
        · cases hbad
    | missing =>
      simp only [hf, watch_ne_watch, CSet.Txn.missingWatch, Bool.or_eq_true, bne_iff_ne]
      constructor
      · intro h
        exact Or.inr ⟨by trivial, by tauto⟩
      · rintro (⟨e2, he2, _⟩ | ⟨_, hd⟩)
        · cases he2
        · tauto
  cases hfind : t.watches.find? (CSet.watch_violated s t.missingWatch) with
  | some w =>
    have hr : t.stage s = ⟨s, t, .consistency_k⟩ := by
      unfold CSet.Txn.stage
      rw [hfind]
    rw [hr]
    exact ⟨⟨fun _ => ⟨w, List.mem_of_find?_eq_some hfind,
      (hpred w).mp (List.find?_some hfind)⟩, fun _ => rfl⟩, fun _ => ⟨rfl, rfl⟩⟩
  | none =>
    have hr : (t.stage s).status = .success_k := by
      unfold CSet.Txn.stage
      rw [hfind]
    constructor
    · constructor
      · intro h
        rw [hr] at h
        cases h
      · rintro ⟨w, hw, hcond⟩
        have hn := List.find?_eq_none.mp hfind w hw
        exact absurd ((hpred w).mpr hcond) (by simpa using hn)
    · intro h
      rw [hr] at h
      cases h

/-- Witness for C2 (amended) at a concrete input: a stale present watch
makes `stage()` fail with `consistency_k` and leave everything unchanged. -/
theorem c2_amended_stage_conflict_witness :
    (CSet.Txn.stage ⟨[], [⟨9, ⟨5, false⟩⟩], 2, .created_k⟩ CSet.make).status =
      Status.consistency_k ∧
    (CSet.Txn.stage ⟨[], [⟨9, ⟨5, false⟩⟩], 2, .created_k⟩ CSet.make).store = CSet.make := by
  have h := c2_amended_stage_conflict CSet.make ⟨[], [⟨9, ⟨5, false⟩⟩], 2, .created_k⟩
  have hst : (CSet.Txn.stage ⟨[], [⟨9, ⟨5, false⟩⟩], 2, .created_k⟩ CSet.make).status =
      Status.consistency_k := by
    apply h.1.mpr
    exact ⟨⟨9, ⟨5, false⟩⟩, by decide, Or.inr ⟨by decide, by decide⟩⟩
  exact ⟨hst, (h.2 hst).1⟩

/-! ### Claim C4 (amended): generation refresh on state transitions -/

/-- Claim C4 as amended: on both variants, `reset()` and `rollback()` draw a
fresh generation by incrementing the container's counter, while a successful
`commit()` leaves the transaction's generation unchanged (the recorded
counterexample shows the original clause that commit draws a fresh
generation fails). -/
theorem c4_amended_generation_refresh :
    (∀ (s : CSet.Store) (t : CSet.Txn),
      ((t.reset s).status = .success_k ∧
        (t.reset s).txn.generation = s.generation + 1 ∧
        (t.reset s).store.generation = s.generation + 1) ∧
      (t.stage_ = .staged_k →
        (t.rollback s).status = .success_k ∧
        (t.rollback s).txn.generation = s.generation + 1 ∧
        (t.rollback s).store.generation = s.generation + 1) ∧
      ((t.commit s).status = .success_k → (t.commit s).txn.generation = t.generation)) ∧
    (∀ (s : CAvl.Store) (t : CAvl.Txn),
      ((t.reset s).status = .success_k ∧
        (t.reset s).txn.generation = s.generation + 1 ∧
        (t.reset s).store.generation = s.generation + 1) ∧
      (t.stage_ = .staged_k →
        (t.rollback s).status = .success_k ∧
        (t.rollback s).txn.generation = s.generation + 1 ∧
        (t.rollback s).store.generation = s.generation + 1) ∧
      ((t.commit s).status = .success_k → (t.commit s).txn.generation = t.generation)) := by
  constructor
  · intro s t
    refine ⟨⟨rfl, rfl, rfl⟩, ?_, ?_⟩
    · intro h
      simp [CSet.Txn.rollback, h]
    · intro h
      cases ht : t.stage_ with
      | created_k => simp [CSet.Txn.commit, ht] at h
      | staged_k => simp [CSet.Txn.commit, ht]
  · intro s t
    refine ⟨⟨rfl, rfl, rfl⟩, ?_, ?_⟩
    · intro h
      simp [CAvl.Txn.rollback, h]
    · intro h
      cases ht : t.stage_ with
      | created_k => simp [CAvl.Txn.commit, ht] at h
      | staged_k => simp [CAvl.Txn.commit, ht]

/-- Witness for C4 (amended) at a concrete input. -/
theorem c4_amended_generation_refresh_witness :
    (CSet.Txn.rollback ⟨[], [], 1, .staged_k⟩ ⟨[], 1, 0⟩).txn.generation = 2 ∧
    (CSet.Txn.commit ⟨[], [], 1, .staged_k⟩ ⟨[], 1, 0⟩).txn.generation = 1 := by
  have h := (c4_amended_generation_refresh.1 ⟨[], 1, 0⟩ ⟨[], [], 1, .staged_k⟩)
  exact ⟨(h.2.1 rfl).2.1, h.2.2 (by decide)⟩

/-! ### Claim C8 (amended): the transparent comparator -/

/-- Claim C8 as amended: the comparator compares extracted identifiers
first; when both arguments carry a generation and the identifiers tie, the
smaller generation sorts first; when at least one argument carries no
generation, equal identifiers compare equal; and `same(a, b)` holds exactly
when neither argument compares less than the other under this same
dispatching comparison (the recorded counterexample shows the original
claim's identifier-only reading of `same` fails for two generation-carrying
arguments). -/
theorem c8_amended_comparator :
    ∀ (a b : Comparable),
      (a.keyOf < b.keyOf → entry_less a b = true) ∧
      (b.keyOf < a.keyOf → entry_less a b = false) ∧
      (a.keyOf = b.keyOf → a.knowsGeneration = true → b.knowsGeneration = true →
        (entry_less a b = true ↔ a.generationOf < b.generationOf)) ∧
      (a.keyOf = b.keyOf → (a.knowsGeneration = false ∨ b.knowsGeneration = false) →
        entry_less a b = false ∧ entry_less b a = false) ∧
      entry_same a b = (!entry_less a b && !entry_less b a) := by
  intro a b
  refine ⟨?_, ?_, ?_, ?_, rfl⟩
  · intro h
    unfold entry_less dated_compare native_compare
    by_cases h1 : (a.knowsGeneration && b.knowsGeneration) = true <;>
      simp [h1, h, Nat.lt_asymm h]
  · intro h
    unfold entry_less dated_compare native_compare
    by_cases h1 : (a.knowsGeneration && b.knowsGeneration) = true <;>
      simp [h1, h, Nat.lt_asymm h]
  · intro hk h1 h2
    unfold entry_less dated_compare
    simp [h1, h2, hk]
  · intro hk h1
    have hng : (a.knowsGeneration && b.knowsGeneration) = false := by
      rcases h1 with h1 | h1 <;> simp [h1]
    have hng2 : (b.knowsGeneration && a.knowsGeneration) = false := by
      rcases h1 with h1 | h1 <;> simp [h1]
    unfold entry_less native_compare
    simp [hng, hng2, hk]

/-- Witness for C8 (amended) at a concrete input: a dated identifier against
a bare identifier with the same key compares equal both ways. -/
theorem c8_amended_comparator_witness :
    entry_less (.ofDated ⟨6, 4⟩) (.ofId 6) = false ∧
    entry_less (.ofId 6) (.ofDated ⟨6, 4⟩) = false := by
  exact (c8_amended_comparator (.ofDated ⟨6, 4⟩) (.ofId 6)).2.2.2.1 rfl (Or.inr rfl)


/-! ### Sorted decomposition lemmas -/

theorem entryLt_key_le {a b : Entry} (h : entryLt a b = true) :
    a.element.key ≤ b.element.key := by
  rcases (entryLt_iff a b).mp h with h1 | h1 <;> omega

theorem dropWhile_head_false {α : Type} (p : α → Bool) (l : List α) :
    ∀ a ∈ (l.dropWhile p).head?, p a = false := by
  induction l with
  | nil => simp
  | cons x rest ih =>
    by_cases h : p x = true
    · simpa [List.dropWhile, h] using ih
    · simp [List.dropWhile, Bool.eq_false_iff.mpr h]

/-- Under sortedness the equal-range split is a genuine three-way partition
of the sequence: smaller keys, the key's revision class, larger keys. -/
theorem eqRange_split (k : Nat) (l : List Entry) (hs : entriesSorted l) :
    l = (eqRange k l).1 ++ (eqRange k l).2.1 ++ (eqRange k l).2.2 ∧
    (∀ e ∈ (eqRange k l).1, e.element.key < k) ∧
    (∀ e ∈ (eqRange k l).2.1, e.element.key = k) ∧
    (∀ e ∈ (eqRange k l).2.2, k < e.element.key) := by
  refine ⟨?_, ?_, ?_, ?_⟩
  · unfold eqRange
    simp [List.takeWhile_append_dropWhile]
  · intro e he
    have := List.mem_takeWhile_imp he
    simpa using this
  · intro e he
    have := List.mem_takeWhile_imp he
    simpa using this
  · intro a ha
    unfold eqRange at ha
    simp only at ha
    have hD : (l.dropWhile (fun e => decide (e.element.key < k))).Sublist l :=
      List.dropWhile_sublist _
    have hsD : entriesSorted (l.dropWhile (fun e => decide (e.element.key < k))) :=
      List.Pairwise.sublist hD hs
    cases hDD : l.dropWhile (fun e => decide (e.element.key < k)) with
    | nil => simp [hDD] at ha
    | cons d0 D1 =>
      have hd0 : k ≤ d0.element.key := by
        have := dropWhile_head_false (fun e => decide (e.element.key < k)) l d0
          (by rw [hDD]; rfl)
        simpa using this
      have hge : ∀ b ∈ d0 :: D1, k ≤ b.element.key := by
        intro b hb
        rcases List.mem_cons.mp hb with hb | hb
        · exact hb ▸ hd0
        · have hlt : entryLt d0 b = true := by
            have hp : List.Pairwise (fun a b => entryLt a b = true) (d0 :: D1) := by
              rw [hDD] at hsD
              exact hsD
            exact (List.pairwise_cons.mp hp).1 b hb
          exact le_trans hd0 (entryLt_key_le hlt)
      rw [hDD] at ha
      have hsDD : List.Pairwise (fun a b => entryLt a b = true) (d0 :: D1) := by
        rw [hDD] at hsD
        exact hsD
      have hsubA : ((d0 :: D1).dropWhile (fun e => e.element.key == k)).Sublist (d0 :: D1) :=
        List.dropWhile_sublist _
      cases hAA : (d0 :: D1).dropWhile (fun e => e.element.key == k) with
      | nil => simp [hAA] at ha
      | cons a0 A1 =>
        have ha0ne : (a0.element.key == k) = false := by
          exact dropWhile_head_false (fun e => e.element.key == k) (d0 :: D1) a0
            (by rw [hAA]; rfl)
        have ha0mem : a0 ∈ d0 :: D1 := by
          have : a0 ∈ a0 :: A1 := by simp
          exact hsubA.subset (hAA ▸ this)
        have ha0 : k < a0.element.key := by
          have h1 := hge a0 ha0mem
          have h2 : a0.element.key ≠ k := by simpa using ha0ne
          omega
        have hsA : List.Pairwise (fun a b => entryLt a b = true) (a0 :: A1) := by
          have := List.Pairwise.sublist hsubA hsDD
          rw [hAA] at this
          exact this
        rw [hAA] at ha
        rcases List.mem_cons.mp ha with ha2 | ha2
        · exact ha2 ▸ ha0
        · have := (List.pairwise_cons.mp hsA).1 a ha2
          exact lt_of_lt_of_le ha0 (entryLt_key_le this)

/-- Insertion of an entry strictly above a prefix and strictly below the
head of the suffix lands between them. -/
theorem setInsert_middle (e : Entry) (l1 l2 : List Entry)
    (h1 : ∀ o ∈ l1, entryLt o e = true)
    (h2 : ∀ o ∈ l2.head?, entryLt e o = true) :
    setInsert e (l1 ++ l2) = (l1 ++ e :: l2, true) := by
  induction l1 with
  | nil =>
    cases l2 with
    | nil => rfl
    | cons b rest =>
      have hb := h2 b (by simp)
      simp [setInsert, hb]
  | cons a rest ih =>
    have ha := h1 a (by simp)
    have hna : entryLt e a = false := entryLt_asymm ha
    simp [setInsert, hna, ha, ih (fun o ho => h1 o (by simp [ho]))]

/-! ### Claim C9 (amended): upsert followed by find -/

/-- Claim C9 as amended: on a well-formed container — storage sorted and
every stored revision of the element's identifier carrying a generation
that does not exceed the counter (which rules out the
counter-reset collision of the recorded counterexample) — a top-level
`upsert(x)` succeeds and an immediately following `find(id_of(x))` with no
intervening writes reports the freshly inserted entry, whose element is
`x`. -/
theorem c9_amended_upsert_find :
    ∀ (s : CSet.Store) (x : Pair),
      entriesSorted s.entries →
      (∀ e ∈ s.entries, e.element.key = x.key → e.generation ≤ s.generation) →
      (s.upsert x).2 = .success_k ∧
      (s.upsert x).1.find x.key = .found ⟨x, s.generation + 1, false, true⟩ := by
  intro s x hs hg
  obtain ⟨hsplit, hB, hS, hA⟩ := eqRange_split x.key s.entries hs
  set B := (eqRange x.key s.entries).1 with hBdef
  set S := (eqRange x.key s.entries).2.1 with hSdef
  set A := (eqRange x.key s.entries).2.2 with hAdef
  set g : Int := s.generation + 1 with hgdef
  set e : Entry := ⟨x, g, false, true⟩ with hedef
  have hSg : ∀ o ∈ S, o.generation ≤ s.generation := by
    intro o ho
    exact hg o (by rw [hsplit]; simp [ho]) (hS o ho)
  have h1 : ∀ o ∈ B ++ S, entryLt o e = true := by
    intro o ho
    rcases List.mem_append.mp ho with ho | ho
    · exact (entryLt_iff o e).mpr (Or.inl (hB o ho))
    · refine (entryLt_iff o e).mpr (Or.inr ⟨hS o ho, ?_⟩)
      have := hSg o ho
      simp only [hedef, hgdef]
      omega
  have h2 : ∀ o ∈ A.head?, entryLt e o = true := by
    intro o ho
    exact (entryLt_iff e o).mpr (Or.inl (hA o (List.mem_of_mem_head? ho)))
  have hins : setInsert e s.entries = ((B ++ S) ++ e :: A, true) := by
    have := setInsert_middle e (B ++ S) A h1 h2
    rw [hsplit, List.append_assoc]
    rw [List.append_assoc] at this
    exact this
  have hSe : ∀ o ∈ S ++ [e], o.element.key = x.key := by
    intro o ho
    rcases List.mem_append.mp ho with ho | ho
    · exact hS o ho
    · simp at ho
      simp [ho, hedef]
  have hr : eqRange x.key ((B ++ S) ++ e :: A) = (B, S ++ [e], A) := by
    have hshape : (B ++ S) ++ e :: A = B ++ (S ++ [e]) ++ A := by simp
    rw [hshape]
    exact eqRange_of_parts x.key B (S ++ [e]) A hB hSe hA
  have hSlt : ∀ o ∈ S, (fun o => entryLt o e) o = true := fun o ho => h1 o (by simp [ho])
  have hee : entryLt e e = false := entryLt_irrefl e
  have hbelow : (S ++ [e]).takeWhile (fun o => entryLt o e) = S := by
    rw [takeWhile_append_of_forall _ S [e] hSlt]
    simp [List.takeWhile, hee]
  have hatAbove : (S ++ [e]).dropWhile (fun o => entryLt o e) = [e] := by
    rw [dropWhile_append_of_forall _ S [e] hSlt]
    simp [List.dropWhile, hee]
  have hupsert : (s.upsert x).1 =
      ⟨B ++ (S.filter (fun o => !o.visible)) ++ [e] ++ A, g,
        s.visibleCount + 1 - (S.filter (fun o => o.visible)).length⟩ := by
    simp only [CSet.Store.upsert, CSet.Store.newGeneration, hins, hr, hbelow,
      hatAbove, erase_visible_seg_eq]
  refine ⟨rfl, ?_⟩
  rw [hupsert]
  have hSf : ∀ o ∈ (S.filter (fun o => !o.visible)) ++ [e], o.element.key = x.key := by
    intro o ho
    rcases List.mem_append.mp ho with ho | ho
    · exact hS o (List.mem_of_mem_filter ho)
    · simp at ho
      simp [ho, hedef]
  have hr2 : eqRange x.key (B ++ (S.filter (fun o => !o.visible)) ++ [e] ++ A) =
      (B, (S.filter (fun o => !o.visible)) ++ [e], A) := by
    have hshape : B ++ (S.filter (fun o => !o.visible)) ++ [e] ++ A =
        B ++ ((S.filter (fun o => !o.visible)) ++ [e]) ++ A := by simp
    rw [hshape]
    exact eqRange_of_parts x.key B _ A hB hSf hA
  have hskip : ((S.filter (fun o => !o.visible)) ++ [e]).dropWhile
      (fun o => !o.visible) = [e] := by
    rw [dropWhile_append_of_forall _ _ [e] (fun o ho => List.of_mem_filter ho)]
    simp [List.dropWhile, hedef]
  simp only [CSet.Store.find, hr2, hskip]


/-! ### Batch upsert lemmas (AVL variant) -/

theorem eqRange_append (k : Nat) (l : List Entry) :
    (eqRange k l).1 ++ ((eqRange k l).2.1 ++ (eqRange k l).2.2) = l := by
  unfold eqRange
  simp [List.takeWhile_append_dropWhile]

theorem eqRange_seg_keys (k : Nat) (l : List Entry) :
    ∀ o ∈ (eqRange k l).2.1, o.element.key = k := by
  intro o ho
  have := List.mem_takeWhile_imp ho
  simpa using this

theorem eqRange_seg_subset (k : Nat) (l : List Entry) :
    ∀ o ∈ (eqRange k l).2.1, o ∈ l := by
  intro o ho
  exact (List.dropWhile_sublist _).subset ((List.takeWhile_sublist _).subset ho)

theorem setInsert_collision (e c : Entry) (l : List Entry) (hs : entriesSorted l)
    (hc : c ∈ l) (hk : c.element.key = e.element.key)
    (hg : c.generation = e.generation) :
    setInsert e l = (l, false) := by
  induction l with
  | nil => simp at hc
  | cons o rest ih =>
    have hp := List.pairwise_cons.mp hs
    rcases List.mem_cons.mp hc with h1 | h1
    · subst h1
      have he1 : entryLt e c = false := by
        rw [Bool.eq_false_iff]
        intro hcon
        rcases (entryLt_iff e c).mp hcon with h2 | h2 <;> omega
      have he2 : entryLt c e = false := by
        rw [Bool.eq_false_iff]
        intro hcon
        rcases (entryLt_iff c e).mp hcon with h2 | h2 <;> omega
      simp [setInsert, he1, he2]
    · have hoc : entryLt o c = true := hp.1 c h1
      have he1 : entryLt e o = false := by
        rw [Bool.eq_false_iff]
        intro hcon
        rcases (entryLt_iff e o).mp hcon with h2 | h2 <;>
          rcases (entryLt_iff o c).mp hoc with h3 | h3 <;> omega
      have he2 : entryLt o e = true := by
        rcases (entryLt_iff o c).mp hoc with h3 | h3
        · exact (entryLt_iff o e).mpr (Or.inl (by omega))
        · exact (entryLt_iff o e).mpr (Or.inr ⟨by omega, by omega⟩)
      simp [setInsert, he1, he2, ih hp.2 h1]

theorem erase_range_upto_noop (k : Nat) (g : Int) (l : List Entry)
    (hvis : ∀ o ∈ (eqRange k l).2.1,
      entryLt o ⟨⟨k, 0⟩, g, false, true⟩ = true → o.visible = false) :
    CAvl.erase_range_upto k g l = l := by
  simp only [CAvl.erase_range_upto]
  have hb : ∀ o ∈ (eqRange k l).2.1.takeWhile
      (fun o => entryLt o ⟨⟨k, 0⟩, g, false, true⟩), (fun o => !o.visible) o = true := by
    intro o ho
    have h1 := List.mem_takeWhile_imp ho
    have h2 : o ∈ (eqRange k l).2.1 := (List.takeWhile_sublist _).subset ho
    simp [hvis o h2 h1]
  have hmid : ((eqRange k l).2.1.takeWhile
      (fun o => entryLt o ⟨⟨k, 0⟩, g, false, true⟩)).filter (fun o => !o.visible) ++
      (eqRange k l).2.1.dropWhile (fun o => entryLt o ⟨⟨k, 0⟩, g, false, true⟩) =
      (eqRange k l).2.1 := by
    rw [List.filter_eq_self.mpr hb, List.takeWhile_append_dropWhile]
  rw [show ∀ (a b c d : List Entry), a ++ b ++ c ++ d = a ++ ((b ++ c) ++ d) by
    intro a b c d
    simp [List.append_assoc]]
  rw [hmid]
  exact eqRange_append k l

theorem sorted_insert_assemble (B S A Sf : List Entry) (e : Entry)
    (hs : entriesSorted (B ++ S ++ A))
    (hSf : Sf.Sublist S)
    (h1 : ∀ o ∈ B ++ S, entryLt o e = true)
    (h2 : ∀ a ∈ A, entryLt e a = true) :
    entriesSorted (B ++ Sf ++ [e] ++ A) := by
  suffices h : List.Pairwise (fun a b => entryLt a b = true) (B ++ (Sf ++ ([e] ++ A))) by
    simpa [entriesSorted, List.append_assoc] using h
  have hs3 : List.Pairwise (fun a b => entryLt a b = true) (B ++ (S ++ A)) := by
    simpa [entriesSorted, List.append_assoc] using hs
  rw [List.pairwise_append] at hs3
  obtain ⟨hB, hSA, hcrossB⟩ := hs3
  rw [List.pairwise_append] at hSA
  obtain ⟨hS, hA, hcrossSA⟩ := hSA
  rw [List.pairwise_append]
  refine ⟨hB, ?_, ?_⟩
  · rw [List.pairwise_append]
    refine ⟨List.Pairwise.sublist hSf hS, ?_, ?_⟩
    · rw [List.pairwise_append]
      refine ⟨List.pairwise_singleton _ _, hA, ?_⟩
      intro a ha b hb
      simp at ha
      subst ha
      exact h2 b hb
    · intro o ho b hb
      have hoS := hSf.subset ho
      rcases List.mem_append.mp hb with hb | hb
      · simp at hb
        subst hb
        exact h1 o (by simp [hoS])
      · exact hcrossSA o hoS b hb
  · intro a ha b hb
    rcases List.mem_append.mp hb with hb | hb
    · exact hcrossB a ha b (List.mem_append.mpr (Or.inl (hSf.subset hb)))
    · rcases List.mem_append.mp hb with hb | hb
      · simp at hb
        subst hb
        exact h1 a (by simp [ha])
      · exact hcrossB a ha b (List.mem_append.mpr (Or.inr hb))

theorem batch_step_entries (g : Int) (st : CAvl.Store) (x : Pair) :
    (CAvl.batch_step g st x).entries =
      CAvl.erase_range_upto x.key g ((setInsert ⟨x, g, false, true⟩ st.entries).1) := rfl

theorem batch_step_generation (g : Int) (st : CAvl.Store) (x : Pair) :
    (CAvl.batch_step g st x).generation = st.generation := rfl


theorem batch_step_fresh (g : Int) (st : CAvl.Store) (x : Pair)
    (hs : entriesSorted st.entries)
    (hfresh : ∀ o ∈ st.entries, o.element.key = x.key → o.generation < g) :
    entriesSorted (CAvl.batch_step g st x).entries ∧
    (∀ o ∈ (CAvl.batch_step g st x).entries,
      o ∈ st.entries ∨ o = ⟨x, g, false, true⟩) ∧
    visible_of_key x.key (CAvl.batch_step g st x).entries = [⟨x, g, false, true⟩] ∧
    (∀ k, k ≠ x.key →
      visible_of_key k (CAvl.batch_step g st x).entries = visible_of_key k st.entries) := by
  obtain ⟨hsplit, hB, hS, hA⟩ := eqRange_split x.key st.entries hs
  set B := (eqRange x.key st.entries).1
  set S := (eqRange x.key st.entries).2.1
  set A := (eqRange x.key st.entries).2.2
  set e : Entry := ⟨x, g, false, true⟩ with hedef
  have hSg : ∀ o ∈ S, o.generation < g := fun o ho =>
    hfresh o (by rw [hsplit]; simp [ho]) (hS o ho)
  have h1 : ∀ o ∈ B ++ S, entryLt o e = true := by
    intro o ho
    rcases List.mem_append.mp ho with ho | ho
    · exact (entryLt_iff o e).mpr (Or.inl (hB o ho))
    · exact (entryLt_iff o e).mpr (Or.inr ⟨hS o ho, hSg o ho⟩)
  have h2 : ∀ a ∈ A, entryLt e a = true := fun a ha =>
    (entryLt_iff e a).mpr (Or.inl (hA a ha))
  have hins : setInsert e st.entries = ((B ++ S) ++ e :: A, true) := by
    have h2h : ∀ o ∈ A.head?, entryLt e o = true := fun o ho =>
      h2 o (List.mem_of_mem_head? ho)
    have hmid := setInsert_middle e (B ++ S) A h1 h2h
    rw [hsplit, List.append_assoc]
    rw [List.append_assoc] at hmid
    exact hmid
  have hSe : ∀ o ∈ S ++ [e], o.element.key = x.key := by
    intro o ho
    rcases List.mem_append.mp ho with ho | ho
    · exact hS o ho
    · simp at ho
      simp [ho, hedef]
  have hr : eqRange x.key ((B ++ S) ++ e :: A) = (B, S ++ [e], A) := by
    have hshape2 : (B ++ S) ++ e :: A = B ++ (S ++ [e]) ++ A := by simp
    rw [hshape2]
    exact eqRange_of_parts x.key B (S ++ [e]) A hB hSe hA
  have hSltb : ∀ o ∈ S,
      (fun o => entryLt o (⟨⟨x.key, 0⟩, g, false, true⟩ : Entry)) o = true := by
    intro o ho
    exact (entryLt_iff o ⟨⟨x.key, 0⟩, g, false, true⟩).mpr
      (Or.inr ⟨by simpa using hS o ho, by simpa using hSg o ho⟩)
  have heb : entryLt e (⟨⟨x.key, 0⟩, g, false, true⟩ : Entry) = false := by
    rw [Bool.eq_false_iff]
    intro hcon
    rcases (entryLt_iff e ⟨⟨x.key, 0⟩, g, false, true⟩).mp hcon with hq | hq <;>
      simp [hedef] at hq <;> omega
  have hbelow : (S ++ [e]).takeWhile
      (fun o => entryLt o (⟨⟨x.key, 0⟩, g, false, true⟩ : Entry)) = S := by
    rw [takeWhile_append_of_forall _ S [e] hSltb]
    simp [List.takeWhile, heb]
  have hrest : (S ++ [e]).dropWhile
      (fun o => entryLt o (⟨⟨x.key, 0⟩, g, false, true⟩ : Entry)) = [e] := by
    rw [dropWhile_append_of_forall _ S [e] hSltb]
    simp [List.dropWhile, heb]
  have hshape : (CAvl.batch_step g st x).entries =
      B ++ S.filter (fun o => !o.visible) ++ [e] ++ A := by
    rw [batch_step_entries]
    simp only [hins, CAvl.erase_range_upto, hr, hbelow, hrest]
  have hmem : ∀ o ∈ (CAvl.batch_step g st x).entries,
      o ∈ st.entries ∨ o = e := by
    intro o ho
    rw [hshape] at ho
    simp only [List.append_assoc, List.mem_append, List.mem_singleton] at ho
    rcases ho with ho | ho | ho | ho
    · exact Or.inl (by rw [hsplit]; simp [ho])
    · exact Or.inl (by rw [hsplit]; simp [List.mem_of_mem_filter ho])
    · exact Or.inr ho
    · exact Or.inl (by rw [hsplit]; simp [ho])
  refine ⟨?_, hmem, ?_, ?_⟩
  · rw [hshape]
    exact sorted_insert_assemble B S A (S.filter (fun o => !o.visible)) e
      (by rw [← hsplit]; exact hs) (List.filter_sublist _) h1 h2
  · rw [hshape]
    unfold visible_of_key
    simp only [List.filter_append]
    have hfB : B.filter (fun o => o.element.key == x.key && o.visible) = [] := by
      rw [List.filter_eq_nil_iff]
      intro a ha
      have := hB a ha
      simp
      omega
    have hfS : (S.filter (fun o => !o.visible)).filter
        (fun o => o.element.key == x.key && o.visible) = [] := by
      rw [List.filter_eq_nil_iff]
      intro a ha
      have := List.of_mem_filter ha
      simp at this
      simp [this]
    have hfA : A.filter (fun o => o.element.key == x.key && o.visible) = [] := by
      rw [List.filter_eq_nil_iff]
      intro a ha
      have := hA a ha
      simp
      omega
    rw [hfB, hfS, hfA]
    simp [hedef]
  · intro k hk
    unfold visible_of_key
    rw [hshape]
    conv_rhs => rw [hsplit]
    simp only [List.filter_append]
    have hfS1 : S.filter (fun o => o.element.key == k && o.visible) = [] := by
      rw [List.filter_eq_nil_iff]
      intro a ha
      have := hS a ha
      simp
      intro hak
      omega
    have hfS2 : (S.filter (fun o => !o.visible)).filter
        (fun o => o.element.key == k && o.visible) = [] := by
      rw [List.filter_eq_nil_iff]
      intro a ha
      have h3 := hS a (List.mem_of_mem_filter ha)
      simp
      intro hak
      omega
    have hfe : [e].filter (fun o => o.element.key == k && o.visible) = [] := by
      simp [hedef]
      intro hek
      exact absurd hek.symm hk
    rw [hfS1, hfS2, hfe]
    simp

theorem batch_step_won (g : Int) (st : CAvl.Store) (x y : Pair)
    (hs : entriesSorted st.entries)
    (hy : visible_of_key x.key st.entries = [⟨y, g, false, true⟩]) :
    (CAvl.batch_step g st x).entries = st.entries := by
  have hymem : (⟨y, g, false, true⟩ : Entry) ∈ visible_of_key x.key st.entries := by
    rw [hy]
    simp
  have hcmem : (⟨y, g, false, true⟩ : Entry) ∈ st.entries :=
    List.mem_of_mem_filter hymem
  have hykey : y.key = x.key := by
    have := List.of_mem_filter hymem
    simp at this
    exact this
  have hins : setInsert (⟨x, g, false, true⟩ : Entry) st.entries = (st.entries, false) :=
    setInsert_collision _ ⟨y, g, false, true⟩ _ hs hcmem (by simp [hykey]) rfl
  have hnoop : CAvl.erase_range_upto x.key g st.entries = st.entries := by
    apply erase_range_upto_noop
    intro o ho hlt
    by_contra hvis
    have hvis2 : o.visible = true := by
      cases hov : o.visible
      · exact absurd hov hvis
      · rfl
    have hkey : o.element.key = x.key := eqRange_seg_keys x.key st.entries o ho
    have hoin : o ∈ visible_of_key x.key st.entries := by
      unfold visible_of_key
      exact List.mem_filter.mpr ⟨eqRange_seg_subset x.key st.entries o ho,
        by simp [hkey, hvis2]⟩
    rw [hy] at hoin
    simp at hoin
    have hog : o.generation < g := by
      rcases (entryLt_iff o ⟨⟨x.key, 0⟩, g, false, true⟩).mp hlt with hq | hq
      · simp at hq
        omega
      · simpa using hq.2
    rw [hoin] at hog
    simp at hog
  rw [batch_step_entries]
  rw [hins, hnoop]


theorem batch_fold_generation (g : Int) (xs : List Pair) : ∀ (st : CAvl.Store),
    (xs.foldl (CAvl.batch_step g) st).generation = st.generation := by
  induction xs with
  | nil => intro st; rfl
  | cons x xs ih =>
    intro st
    rw [List.foldl_cons, ih]
    rfl

theorem batch_fold_spec (g : Int) (xs : List Pair) : ∀ (st : CAvl.Store),
    entriesSorted st.entries →
    (∀ k, (∀ o ∈ st.entries, o.element.key = k → o.generation < g) ∨
      (∃ y, visible_of_key k st.entries = [⟨y, g, false, true⟩])) →
    entriesSorted (xs.foldl (CAvl.batch_step g) st).entries ∧
    (∀ k,
      ((∀ o ∈ st.entries, o.element.key = k → o.generation < g) →
        (match xs.find? (fun p => p.key == k) with
         | some y => visible_of_key k (xs.foldl (CAvl.batch_step g) st).entries =
             [⟨y, g, false, true⟩]
         | none => visible_of_key k (xs.foldl (CAvl.batch_step g) st).entries =
             visible_of_key k st.entries)) ∧
      (∀ y, visible_of_key k st.entries = [⟨y, g, false, true⟩] →
        visible_of_key k (xs.foldl (CAvl.batch_step g) st).entries =
          [⟨y, g, false, true⟩])) := by
  induction xs with
  | nil =>
    intro st hs _
    exact ⟨hs, fun k => ⟨fun _ => rfl, fun y hy => hy⟩⟩
  | cons x xs ih =>
    intro st hs hFW
    have hfold : (x :: xs).foldl (CAvl.batch_step g) st =
        xs.foldl (CAvl.batch_step g) (CAvl.batch_step g st x) := rfl
    rcases hFW x.key with hfr | ⟨y0, hwon⟩
    · obtain ⟨hs1, hmem1, hvx, hvother⟩ := batch_step_fresh g st x hs hfr
      have hFW1 : ∀ k,
          (∀ o ∈ (CAvl.batch_step g st x).entries, o.element.key = k → o.generation < g) ∨
          (∃ y, visible_of_key k (CAvl.batch_step g st x).entries =
            [⟨y, g, false, true⟩]) := by
        intro k
        by_cases hk : k = x.key
        · exact Or.inr ⟨x, by rw [hk]; exact hvx⟩
        · rcases hFW k with hf | ⟨y, hy⟩
          · refine Or.inl ?_
            intro o ho hok
            rcases hmem1 o ho with ho2 | ho2
            · exact hf o ho2 hok
            · rw [ho2] at hok
              simp at hok
              exact absurd hok.symm hk
          · exact Or.inr ⟨y, by rw [hvother k hk]; exact hy⟩
      obtain ⟨hs2, hpost⟩ := ih (CAvl.batch_step g st x) hs1 hFW1
      rw [hfold]
      refine ⟨hs2, fun k => ⟨?_, ?_⟩⟩
      · intro hf
        by_cases hk : k = x.key
        · subst hk
          rw [List.find?_cons_of_pos _ (by simp)]
          exact (hpost x.key).2 x hvx
        · rw [List.find?_cons_of_neg _ (by simp; exact fun h => hk h.symm)]
          have hf1 : ∀ o ∈ (CAvl.batch_step g st x).entries,
              o.element.key = k → o.generation < g := by
            intro o ho hok
            rcases hmem1 o ho with ho2 | ho2
            · exact hf o ho2 hok
            · rw [ho2] at hok
              simp at hok
              exact absurd hok.symm hk
          have h2a := (hpost k).1 hf1
          cases hfind : xs.find? (fun p => p.key == k) with
          | some y =>
            rw [hfind] at h2a
            exact h2a
          | none =>
            rw [hfind] at h2a
            rw [h2a, hvother k hk]
      · intro y hy
        by_cases hk : k = x.key
        · exfalso
          have h5 : (⟨y, g, false, true⟩ : Entry) ∈ visible_of_key k st.entries := by
            rw [hy]
            simp
          have h6 : (⟨y, g, false, true⟩ : Entry) ∈
              List.filter (fun e => e.element.key == k && e.visible) st.entries := h5
          have hymem : (⟨y, g, false, true⟩ : Entry) ∈ st.entries :=
            List.mem_of_mem_filter h6
          have hykey : y.key = k := by
            have h3 := List.of_mem_filter h6
            simpa using h3
          have h4 := hfr ⟨y, g, false, true⟩ hymem (by rw [hk] at hykey; simpa using hykey)
          simp at h4
        · exact (hpost k).2 y (by rw [hvother k hk]; exact hy)
    · have hent : (CAvl.batch_step g st x).entries = st.entries :=
        batch_step_won g st x y0 hs hwon
      have hs1 : entriesSorted (CAvl.batch_step g st x).entries := by
        rw [hent]
        exact hs
      have hFW1 : ∀ k,
          (∀ o ∈ (CAvl.batch_step g st x).entries, o.element.key = k → o.generation < g) ∨
          (∃ y, visible_of_key k (CAvl.batch_step g st x).entries =
            [⟨y, g, false, true⟩]) := by
        intro k
        rw [hent]
        exact hFW k
      obtain ⟨hs2, hpost⟩ := ih (CAvl.batch_step g st x) hs1 hFW1
      rw [hfold]
      refine ⟨hs2, fun k => ⟨?_, ?_⟩⟩
      · intro hf
        by_cases hk : k = x.key
        · exfalso
          have h5 : (⟨y0, g, false, true⟩ : Entry) ∈ visible_of_key x.key st.entries := by
            rw [hwon]
            simp
          have h6 : (⟨y0, g, false, true⟩ : Entry) ∈
              List.filter (fun e => e.element.key == x.key && e.visible) st.entries := h5
          have hymem : (⟨y0, g, false, true⟩ : Entry) ∈ st.entries :=
            List.mem_of_mem_filter h6
          have hykey : y0.key = x.key := by
            have h3 := List.of_mem_filter h6
            simpa using h3
          have h4 := hf ⟨y0, g, false, true⟩ hymem (by rw [hk]; simpa using hykey)
          simp at h4
        · rw [List.find?_cons_of_neg _ (by simp; exact fun h => hk h.symm)]
          have hf1 : ∀ o ∈ (CAvl.batch_step g st x).entries,
              o.element.key = k → o.generation < g := by
            rw [hent]
            exact hf
          have h2a := (hpost k).1 hf1
          cases hfind : xs.find? (fun p => p.key == k) with
          | some y =>
            rw [hfind] at h2a
            exact h2a
          | none =>
            rw [hfind] at h2a
            rw [h2a, hent]
      · intro y hy
        exact (hpost k).2 y (by rw [hent]; exact hy)

/-! ### Claim C3 (amended): atomic batch upsert -/

/-- Claim C3 as amended: on a well-formed container, the AVL variant's batch
`upsert(begin, end)` assigns the single fresh generation `counter + 1` to
the whole batch and is atomic — a failed allocation returns out-of-memory
with the container exactly as before, and on success every identifier
occurring in the batch has exactly one visible revision, built from the
first element of the range with that identifier (later elements with a
duplicated identifier are dropped rather than inserted, which is what the
recorded counterexample forces on the original "every element is inserted"
wording). -/
theorem c3_amended_batch_upsert :
    ∀ (s : CAvl.Store) (xs : List Pair) (alloc_ok : Bool),
      entriesSorted s.entries →
      (∀ e ∈ s.entries, e.generation ≤ s.generation) →
      ((s.upsertBatch xs alloc_ok).2 ≠ .success_k →
        (s.upsertBatch xs alloc_ok).1 = s ∧
        (s.upsertBatch xs alloc_ok).2 = .out_of_memory_heap_k) ∧
      ((s.upsertBatch xs alloc_ok).2 = .success_k →
        (s.upsertBatch xs alloc_ok).1.generation = s.generation + 1 ∧
        (∀ x ∈ xs, ∃ y, xs.find? (fun p => p.key == x.key) = some y ∧
          visible_of_key x.key (s.upsertBatch xs alloc_ok).1.entries =
            [⟨y, s.generation + 1, false, true⟩])) := by
  intro s xs ok hs hg
  by_cases hc : (!ok && decide (0 < xs.length)) = true
  · have hres : s.upsertBatch xs ok = (s, .out_of_memory_heap_k) := by
      simp only [CAvl.Store.upsertBatch, hc, if_pos]
    rw [hres]
    exact ⟨fun _ => ⟨rfl, rfl⟩, fun h => by cases h⟩
  · have hres : s.upsertBatch xs ok =
        (xs.foldl (CAvl.batch_step (s.generation + 1))
          { s with generation := s.generation + 1 }, .success_k) := by
      simp only [CAvl.Store.upsertBatch, CAvl.Store.newGeneration, hc]
      simp [hc]
    rw [hres]
    refine ⟨fun h => absurd rfl h, fun _ => ⟨?_, ?_⟩⟩
    · rw [batch_fold_generation]
    · intro x hx
      have hFW : ∀ k, (∀ o ∈ ({ s with generation := s.generation + 1 } :
            CAvl.Store).entries, o.element.key = k → o.generation < s.generation + 1) ∨
          (∃ y, visible_of_key k ({ s with generation := s.generation + 1 } :
            CAvl.Store).entries = [⟨y, s.generation + 1, false, true⟩]) := by
        intro k
        refine Or.inl ?_
        intro o ho _
        have := hg o ho
        omega
      obtain ⟨_, hpost⟩ := batch_fold_spec (s.generation + 1) xs
        { s with generation := s.generation + 1 } hs hFW
      have hfr : ∀ o ∈ ({ s with generation := s.generation + 1 } :
          CAvl.Store).entries, o.element.key = x.key → o.generation < s.generation + 1 := by
        intro o ho _
        have := hg o ho
        omega
      have h2a := (hpost x.key).1 hfr
      have hsome : (xs.find? (fun p => p.key == x.key)).isSome := by
        rw [List.find?_isSome]
        exact ⟨x, hx, by simp⟩
      obtain ⟨y, hy⟩ := Option.isSome_iff_exists.mp hsome
      rw [hy] at h2a
      exact ⟨y, hy, h2a⟩


theorem c9_amended_upsert_find_witness :
    entriesSorted ((CSet.make.upsert ⟨4, 2⟩).1).entries ∧
    (((CSet.make.upsert ⟨4, 2⟩).1.upsert ⟨4, 8⟩).2 = .success_k ∧
      ((CSet.make.upsert ⟨4, 2⟩).1.upsert ⟨4, 8⟩).1.find 4 =
        .found ⟨⟨4, 8⟩, 2, false, true⟩) := by
  refine ⟨by decide, ?_⟩
  have h := c9_amended_upsert_find (CSet.make.upsert ⟨4, 2⟩).1 ⟨4, 8⟩
    (by decide) (by decide)
  have hg : (CSet.make.upsert (⟨4, 2⟩ : Pair)).1.generation + 1 = 2 := by decide
  have h2 := h.2
  rw [hg] at h2
  exact ⟨h.1, h2⟩

theorem c3_amended_batch_upsert_witness :
    entriesSorted CAvl.make.entries ∧
    visible_of_key 5 ((CAvl.make.upsertBatch [⟨5, 1⟩, ⟨5, 2⟩] true).1).entries =
      [⟨⟨5, 1⟩, 1, false, true⟩] := by
  refine ⟨by decide, ?_⟩
  have h := c3_amended_batch_upsert CAvl.make [⟨5, 1⟩, ⟨5, 2⟩] true
    (by decide) (by decide)
  obtain ⟨y, hy, hv⟩ := (h.2 (by decide)).2 ⟨5, 1⟩ (by decide)
  have hfind : ([⟨5, 1⟩, ⟨5, 2⟩] : List Pair).find?
      (fun p => p.key == (⟨5, 1⟩ : Pair).key) = some ⟨5, 1⟩ := by decide
  have hyv : (⟨5, 1⟩ : Pair) = y := by
    have h7 := hfind.symm.trans hy
    simpa using h7
  subst hyv
  have hg : CAvl.make.generation + 1 = 1 := by decide
  rw [hg] at hv
  exact hv

end Ucset
